import Mathlib

/-!
Verification development for the boardcast video post-processing utilities
(`py-util/motion.py`, `py-util/overlay.py`, `py-util/render.py`,
`py-util/export.py`, `py-util/segmentation.py`).

Times and motion scores are modelled as exact rationals; points as integer
pairs (they are parsed with `int` in `parse_corners`).  Python's `sorted`
(a stable sort) is modelled by `List.insertionSort`, which is stable for the
key-based total preorders used here.  Fallible functions return `Except`.
-/

namespace Boardcast

/-- Time interval, a `(start, end)` pair in seconds. -/
abbrev Seg : Type := ℚ × ℚ

/-- Comparator used by Python's `sorted(segments, key=lambda x: x[0])`:
compare by start time. -/
def segLe (a b : Seg) : Prop := a.1 ≤ b.1

instance : DecidableRel segLe := fun a b => inferInstanceAs (Decidable (a.1 ≤ b.1))

instance : IsTotal Seg segLe := ⟨fun a b => le_total a.1 b.1⟩

instance : IsTrans Seg segLe := ⟨fun _ _ _ h h2 => le_trans h h2⟩

/-- Loop body of `merge_overlapping_segments` (motion.py lines 218-228): scan the
sorted tail, keeping a running interval `(cs, ce)`; an incoming interval whose
start is `≤ ce` (overlapping or touching) is merged by extending `ce`, otherwise
the running interval is flushed and restarted. -/
def mergeLoop : List Seg → ℚ → ℚ → List Seg
  | [], cs, ce => [(cs, ce)]
  | (s, e) :: rest, cs, ce =>
    if s ≤ ce then mergeLoop rest cs (max ce e)
    else (cs, ce) :: mergeLoop rest s e

/-- Embeds `merge_overlapping_segments` (motion.py lines 202-229): sort by start
time, then fold with `mergeLoop`; the empty input short-circuits to `[]`. -/
def merge_overlapping_segments (segments : List Seg) : List Seg :=
  match List.insertionSort segLe segments with
  | [] => []
  | (cs, ce) :: rest => mergeLoop rest cs ce

/-- The head of a `mergeLoop` run keeps the running interval's start. -/
lemma mergeLoop_head (l : List Seg) : ∀ (cs ce : ℚ),
    ∃ ce' t, mergeLoop l cs ce = (cs, ce') :: t := by
  induction l with
  | nil => intro cs ce; exact ⟨ce, [], rfl⟩
  | cons p rest ih =>
    intro cs ce
    obtain ⟨s, e⟩ := p
    by_cases h : s ≤ ce
    · obtain ⟨ce', t, ht⟩ := ih cs (max ce e)
      exact ⟨ce', t, by simp [mergeLoop, h, ht]⟩
    · obtain ⟨ce', t, ht⟩ := ih s e
      exact ⟨ce, (s, ce') :: t, by simp [mergeLoop, h, ht]⟩

/-- Every `mergeLoop` result has adjacent intervals separated by a strict gap. -/
lemma mergeLoop_chain (l : List Seg) : ∀ (cs ce : ℚ),
    List.Chain' (fun p q : Seg => p.2 < q.1) (mergeLoop l cs ce) := by
  induction l with
  | nil => intro cs ce; simp [mergeLoop]
  | cons p rest ih =>
    intro cs ce
    obtain ⟨s, e⟩ := p
    by_cases h : s ≤ ce
    · simpa [mergeLoop, h] using ih cs (max ce e)
    · obtain ⟨ce', t, ht⟩ := mergeLoop_head rest s e
      have hchain := ih s e
      rw [ht] at hchain
      simp only [mergeLoop, h, if_false]
      rw [ht, List.chain'_cons]
      exact ⟨lt_of_not_le h, hchain⟩

/-- C4: for every input list of (start, end) intervals, the list returned by
`merge_overlapping_segments` is strictly ordered and pairwise non-overlapping:
`end[i] < start[i+1]` for every pair of adjacent output intervals. -/
theorem merge_output_strictly_separated (segments : List Seg) :
    List.Chain' (fun p q : Seg => p.2 < q.1)
      (merge_overlapping_segments segments) := by
  unfold merge_overlapping_segments
  cases h : List.insertionSort segLe segments with
  | nil => simp
  | cons p rest =>
    obtain ⟨cs, ce⟩ := p
    exact mergeLoop_chain rest cs ce

/-- When the running interval already has a strict gap to every later interval
in a chain, `mergeLoop` just flushes everything unchanged. -/
lemma mergeLoop_id (l : List Seg) : ∀ (cs ce : ℚ),
    List.Chain' (fun p q : Seg => p.2 < q.1) ((cs, ce) :: l) →
    mergeLoop l cs ce = (cs, ce) :: l := by
  induction l with
  | nil => intro cs ce _; rfl
  | cons p rest ih =>
    intro cs ce hchain
    obtain ⟨s, e⟩ := p
    rw [List.chain'_cons] at hchain
    have hlt : ce < s := hchain.1
    have h : ¬ s ≤ ce := not_le.mpr hlt
    simp only [mergeLoop, h, if_false]
    rw [ih s e hchain.2]

/-- C8: for every raw interval list that is already sorted by start time and
non-overlapping (adjacent gaps are strict, matching the spec's invariant
`end[i] < start[i+1]`), `merge_overlapping_segments` is a no-op. -/
theorem merge_noop_of_sorted_disjoint (l : List Seg)
    (hs : List.Sorted segLe l)
    (hd : List.Chain' (fun p q : Seg => p.2 < q.1) l) :
    merge_overlapping_segments l = l := by
  unfold merge_overlapping_segments
  rw [hs.insertionSort_eq]
  cases l with
  | nil => rfl
  | cons p rest =>
    obtain ⟨cs, ce⟩ := p
    exact mergeLoop_id rest cs ce hd

/-- Witness for C8 at the concrete sorted, disjoint list `[(0,1), (2,3)]`. -/
theorem merge_noop_witness :
    List.Sorted segLe [((0 : ℚ), (1 : ℚ)), (2, 3)] ∧
    List.Chain' (fun p q : Seg => p.2 < q.1) [((0 : ℚ), (1 : ℚ)), (2, 3)] ∧
    merge_overlapping_segments [((0 : ℚ), (1 : ℚ)), (2, 3)] =
      [((0 : ℚ), (1 : ℚ)), (2, 3)] := by
  refine ⟨?_, ?_, ?_⟩
  · simp [List.Sorted, segLe]
  · simp
  · exact merge_noop_of_sorted_disjoint _ (by simp [List.Sorted, segLe]) (by simp)

/-- Loop of `detect_motion_in_video` (motion.py lines 134-174), abstracted over
the per-frame motion booleans `motion_score > motion_threshold`.  The first
frame only seeds `prev_frame` (the `continue` branch), so the boolean list
starts at frame 1; `frameCount` is the Python `frame_count` value at the moment
the current frame's `timestamp = frame_count / fps` is computed, and `current`
is the pending `current_segment` start time.  When the stream ends with a
pending segment, it is closed at `frame_count / fps`. -/
def motionLoop (fps : ℚ) : List Bool → ℕ → Option ℚ → List Seg
  | [], frameCount, current =>
    match current with
    | none => []
    | some s => [(s, (frameCount : ℚ) / fps)]
  | b :: rest, frameCount, current =>
    if b then
      match current with
      | none => motionLoop fps rest (frameCount + 1) (some ((frameCount : ℚ) / fps))
      | some s => motionLoop fps rest (frameCount + 1) (some s)
    else
      match current with
      | none => motionLoop fps rest (frameCount + 1) none
      | some s => (s, (frameCount : ℚ) / fps) :: motionLoop fps rest (frameCount + 1) none

/-- Embeds `detect_motion_in_video` (motion.py lines 93-177) over the stream of
per-frame motion booleans for frames `1, 2, ...` (frame 0 never produces a
decision: it only initializes `prev_frame`). -/
def detect_motion_in_video (fps : ℚ) (motion : List Bool) : List Seg :=
  motionLoop fps motion 1 none

lemma motionLoop_nil_none (fps : ℚ) (n : ℕ) : motionLoop fps [] n none = [] := rfl

lemma motionLoop_nil_some (fps : ℚ) (n : ℕ) (s : ℚ) :
    motionLoop fps [] n (some s) = [(s, (n : ℚ) / fps)] := rfl

lemma motionLoop_true_none (fps : ℚ) (rest : List Bool) (n : ℕ) :
    motionLoop fps (true :: rest) n none =
      motionLoop fps rest (n + 1) (some ((n : ℚ) / fps)) := rfl

lemma motionLoop_true_some (fps : ℚ) (rest : List Bool) (n : ℕ) (s : ℚ) :
    motionLoop fps (true :: rest) n (some s) =
      motionLoop fps rest (n + 1) (some s) := rfl

lemma motionLoop_false_none (fps : ℚ) (rest : List Bool) (n : ℕ) :
    motionLoop fps (false :: rest) n none = motionLoop fps rest (n + 1) none := rfl

lemma motionLoop_false_some (fps : ℚ) (rest : List Bool) (n : ℕ) (s : ℚ) :
    motionLoop fps (false :: rest) n (some s) =
      (s, (n : ℚ) / fps) :: motionLoop fps rest (n + 1) none := rfl

/-- Division by a positive rational is strictly monotone in the numerator. -/
lemma div_fps_lt {fps : ℚ} (hfps : 0 < fps) (n : ℕ) :
    (n : ℚ) / fps < ((n + 1 : ℕ) : ℚ) / fps := by
  apply div_lt_div_of_pos_right _ hfps
  push_cast
  linarith

/-- Combined structural invariant of `motionLoop`: provided the pending start
(if any) lies strictly before the current timestamp, every emitted interval has
start < end, adjacent intervals are strictly separated, and every emitted start
is bounded below by the pending start (or the current timestamp). -/
lemma motionLoop_invariant (fps : ℚ) (hfps : 0 < fps) :
    ∀ (bs : List Bool) (n : ℕ) (cur : Option ℚ),
    (∀ s, cur = some s → s < (n : ℚ) / fps) →
    (∀ p ∈ motionLoop fps bs n cur, p.1 < p.2) ∧
    List.Pairwise (fun p q : Seg => p.2 < q.1) (motionLoop fps bs n cur) ∧
    (∀ p ∈ motionLoop fps bs n cur, cur.getD ((n : ℚ) / fps) ≤ p.1) := by
  intro bs
  induction bs with
  | nil =>
    intro n cur hcur
    cases cur with
    | none => simp [motionLoop]
    | some s =>
      refine ⟨?_, ?_, ?_⟩
      · intro p hp
        simp only [motionLoop, List.mem_singleton] at hp
        subst hp
        exact hcur s rfl
      · simp [motionLoop]
      · intro p hp
        simp only [motionLoop, List.mem_singleton] at hp
        subst hp
        simp
  | cons b rest ih =>
    intro n cur hcur
    cases b with
    | true =>
      cases cur with
      | none =>
        have hnext : ∀ s, some ((n : ℚ) / fps) = some s → s < ((n + 1 : ℕ) : ℚ) / fps := by
          intro s hs
          cases hs
          exact div_fps_lt hfps n
        obtain ⟨h1, h2, h3⟩ := ih (n + 1) (some ((n : ℚ) / fps)) hnext
        rw [motionLoop_true_none]
        refine ⟨h1, h2, ?_⟩
        intro p hp
        simpa using h3 p hp
      | some s =>
        have hnext : ∀ t, some s = some t → t < ((n + 1 : ℕ) : ℚ) / fps := by
          intro t ht
          cases ht
          exact lt_trans (hcur s rfl) (div_fps_lt hfps n)
        obtain ⟨h1, h2, h3⟩ := ih (n + 1) (some s) hnext
        rw [motionLoop_true_some]
        exact ⟨h1, h2, h3⟩
    | false =>
      cases cur with
      | none =>
        obtain ⟨h1, h2, h3⟩ := ih (n + 1) none (by intro s hs; cases hs)
        rw [motionLoop_false_none]
        refine ⟨h1, h2, ?_⟩
        intro p hp
        have := h3 p hp
        simp only [Option.getD_none] at this ⊢
        exact le_trans (le_of_lt (div_fps_lt hfps n)) this
      | some s =>
        obtain ⟨h1, h2, h3⟩ := ih (n + 1) none (by intro t ht; cases ht)
        have hs : s < (n : ℚ) / fps := hcur s rfl
        rw [motionLoop_false_some]
        refine ⟨?_, ?_, ?_⟩
        · intro p hp
          rcases List.mem_cons.mp hp with hp | hp
          · subst hp; exact hs
          · exact h1 p hp
        · rw [List.pairwise_cons]
          refine ⟨?_, h2⟩
          intro q hq
          have := h3 q hq
          simp only [Option.getD_none] at this
          exact lt_of_lt_of_le (div_fps_lt hfps n) this
        · intro p hp
          simp only [Option.getD_some]
          rcases List.mem_cons.mp hp with hp | hp
          · subst hp; exact le_rfl
          · have := h3 p hp
            simp only [Option.getD_none] at this
            exact le_trans (le_of_lt hs)
              (le_trans (le_of_lt (div_fps_lt hfps n)) this)

/-- When the stream ends in the ACTIVE state (last motion boolean true, or no
booleans at all but a pending segment), the output ends with an interval
closing at `frame_count / fps`. -/
lemma motionLoop_final_close (fps : ℚ) :
    ∀ (bs : List Bool) (n : ℕ) (cur : Option ℚ),
    bs.getLast?.getD cur.isSome = true →
    ∃ pre a, motionLoop fps bs n cur =
      pre ++ [(a, ((n + bs.length : ℕ) : ℚ) / fps)] := by
  intro bs
  induction bs with
  | nil =>
    intro n cur hac
    cases cur with
    | none => simp at hac
    | some s => exact ⟨[], s, by simp [motionLoop]⟩
  | cons b rest ih =>
    intro n cur hac
    have hrest : rest.getLast?.getD true = true := by
      cases hr : rest.getLast? with
      | none => rfl
      | some v =>
        cases rest with
        | nil => simp at hr
        | cons c t =>
          rw [List.getLast?_cons_cons, hr] at hac
          simpa [hr] using hac
    have harith : n + (b :: rest).length = (n + 1) + rest.length := by
      simp only [List.length_cons]
      omega
    cases b with
    | true =>
      cases cur with
      | none =>
        obtain ⟨pre, a, ha⟩ := ih (n + 1) (some ((n : ℚ) / fps)) (by simpa using hrest)
        refine ⟨pre, a, ?_⟩
        rw [motionLoop_true_none, harith]
        exact ha
      | some s =>
        obtain ⟨pre, a, ha⟩ := ih (n + 1) (some s) (by simpa using hrest)
        refine ⟨pre, a, ?_⟩
        rw [motionLoop_true_some, harith]
        exact ha
    | false =>
      have hrne : rest ≠ [] := by
        intro h
        subst h
        simp at hac
      have hlast : rest.getLast? = some true := by
        cases rest with
        | nil => exact absurd rfl hrne
        | cons c t =>
          rw [List.getLast?_cons_cons] at hac
          cases hr : (c :: t).getLast? with
          | none => simp at hr
          | some v =>
            rw [hr] at hac
            simp only [Option.getD_some] at hac
            rw [hac]
      cases cur with
      | none =>
        obtain ⟨pre, a, ha⟩ := ih (n + 1) none (by simp [hlast])
        refine ⟨pre, a, ?_⟩
        rw [motionLoop_false_none, harith]
        exact ha
      | some s =>
        obtain ⟨pre, a, ha⟩ := ih (n + 1) none (by simp [hlast])
        refine ⟨(s, (n : ℚ) / fps) :: pre, a, ?_⟩
        rw [motionLoop_false_some, harith, ha, List.cons_append]

/-- C3: for every positive frame rate and every sequence of per-frame motion
booleans, the Motion Segmenter's two-state machine returns intervals with
start < end, strictly increasing start times (sorted), pairwise disjoint and
non-overlapping; and if the state is still ACTIVE when the stream ends, a final
interval closing at `frame_count / fps` is emitted. -/
theorem detect_motion_intervals_sorted_disjoint (fps : ℚ) (hfps : 0 < fps)
    (motion : List Bool) :
    (∀ p ∈ detect_motion_in_video fps motion, p.1 < p.2) ∧
    List.Pairwise (fun p q : Seg => p.1 < q.1) (detect_motion_in_video fps motion) ∧
    List.Pairwise (fun p q : Seg => p.2 < q.1) (detect_motion_in_video fps motion) ∧
    (motion.getLast? = some true →
      ∃ pre a, detect_motion_in_video fps motion =
        pre ++ [(a, ((1 + motion.length : ℕ) : ℚ) / fps)]) := by
  obtain ⟨h1, h2, _⟩ := motionLoop_invariant fps hfps motion 1 none (by intro s hs; cases hs)
  refine ⟨h1, ?_, h2, ?_⟩
  · exact h2.imp_of_mem (fun {p q} hp _ hpq => lt_trans (h1 p hp) hpq)
  · intro hlast
    have := motionLoop_final_close fps motion 1 none (by simp [hlast])
    simpa using this

/-- Witness for C3 at fps = 2 with motion booleans `[true]` (ACTIVE at end). -/
theorem detect_motion_witness :
    (0 : ℚ) < 2 ∧
    ((∀ p ∈ detect_motion_in_video 2 [true], p.1 < p.2) ∧
    List.Pairwise (fun p q : Seg => p.1 < q.1) (detect_motion_in_video 2 [true]) ∧
    List.Pairwise (fun p q : Seg => p.2 < q.1) (detect_motion_in_video 2 [true]) ∧
    ([true].getLast? = some true →
      ∃ pre a, detect_motion_in_video 2 [true] =
        pre ++ [(a, ((1 + [true].length : ℕ) : ℚ) / 2)])) :=
  ⟨by norm_num, detect_motion_intervals_sorted_disjoint 2 (by norm_num) [true]⟩

/-- Every boundary produced by `motionLoop` is an exact `frame_index / fps`
quotient, provided the pending start is one. -/
lemma motionLoop_boundaries (fps : ℚ) :
    ∀ (bs : List Bool) (n : ℕ) (cur : Option ℚ),
    (∀ s, cur = some s → ∃ j : ℕ, s = (j : ℚ) / fps) →
    ∀ p ∈ motionLoop fps bs n cur,
      ∃ j k : ℕ, p.1 = (j : ℚ) / fps ∧ p.2 = (k : ℚ) / fps := by
  intro bs
  induction bs with
  | nil =>
    intro n cur hcur p hp
    cases cur with
    | none => simp [motionLoop_nil_none] at hp
    | some s =>
      rw [motionLoop_nil_some, List.mem_singleton] at hp
      obtain ⟨j, hj⟩ := hcur s rfl
      exact ⟨j, n, by rw [hp, hj], by rw [hp]⟩
  | cons b rest ih =>
    intro n cur hcur p hp
    cases b with
    | true =>
      cases cur with
      | none =>
        rw [motionLoop_true_none] at hp
        exact ih (n + 1) _ (fun s hs => ⟨n, by cases hs; rfl⟩) p hp
      | some s =>
        rw [motionLoop_true_some] at hp
        exact ih (n + 1) _ (fun t ht => hcur t ht) p hp
    | false =>
      cases cur with
      | none =>
        rw [motionLoop_false_none] at hp
        exact ih (n + 1) none (fun s hs => by cases hs) p hp
      | some s =>
        rw [motionLoop_false_some] at hp
        rcases List.mem_cons.mp hp with hp | hp
        · obtain ⟨j, hj⟩ := hcur s rfl
          exact ⟨j, n, by rw [hp, hj], by rw [hp]⟩
        · exact ih (n + 1) none (fun t ht => by cases ht) p hp

/-- A rational with reduced denominator 3 is not an integer number of
hundredths. -/
lemma one_third_ne_centi (z : ℤ) : (1 : ℚ) / 3 ≠ (z : ℚ) / 100 := by
  intro h
  rw [div_eq_div_iff (by norm_num) (by norm_num)] at h
  have h2 : (100 : ℤ) = z * 3 := by exact_mod_cast h
  omega

/-- A rational with reduced denominator 3 is not an integer number of
thousandths. -/
lemma one_third_ne_milli (z : ℤ) : (1 : ℚ) / 3 ≠ (z : ℚ) / 1000 := by
  intro h
  rw [div_eq_div_iff (by norm_num) (by norm_num)] at h
  have h2 : (1000 : ℤ) = z * 3 := by exact_mod_cast h
  omega

/-- C6 counterexample: at fps = 3 with motion present on frame 1 and absent on
frame 2, the emitted interval is exactly `(1/3, 2/3)`, and the boundary `1/3`
is representable neither with 2 decimal places nor with 3 decimal places, so no
fixed 2-3 decimal rounding was applied before returning. -/
theorem detect_motion_boundary_not_rounded :
    detect_motion_in_video 3 [true, false] = [((1 : ℚ) / 3, 2 / 3)] ∧
    ¬ ∃ z : ℤ, ((1 : ℚ) / 3 = (z : ℚ) / 100 ∨ (1 : ℚ) / 3 = (z : ℚ) / 1000) := by
  constructor
  · show motionLoop 3 [true, false] 1 none = [((1 : ℚ) / 3, 2 / 3)]
    rw [motionLoop_true_none, motionLoop_false_some, motionLoop_nil_none]
    norm_num
  · rintro ⟨z, h | h⟩
    · exact one_third_ne_centi z h
    · exact one_third_ne_milli z h

/-- C6 amended: the Motion Segmenter emits interval boundaries as exact
`frame_index / fps` quotients, with no rounding applied. -/
theorem detect_motion_boundaries_exact_quotients (fps : ℚ) (motion : List Bool)
    (p : Seg) (hp : p ∈ detect_motion_in_video fps motion) :
    ∃ j k : ℕ, p.1 = (j : ℚ) / fps ∧ p.2 = (k : ℚ) / fps :=
  motionLoop_boundaries fps motion 1 none (fun s hs => by cases hs) p hp

/-- Witness for the amended C6 at fps = 3, motion `[true, false]`. -/
theorem detect_motion_boundaries_witness :
    ((1 : ℚ) / 3, (2 : ℚ) / 3) ∈ detect_motion_in_video 3 [true, false] ∧
    ∃ j k : ℕ, ((1 : ℚ) / 3, (2 : ℚ) / 3).1 = (j : ℚ) / 3 ∧
      ((1 : ℚ) / 3, (2 : ℚ) / 3).2 = (k : ℚ) / 3 := by
  have hmem : ((1 : ℚ) / 3, (2 : ℚ) / 3) ∈ detect_motion_in_video 3 [true, false] := by
    show _ ∈ motionLoop 3 [true, false] 1 none
    rw [motionLoop_true_none, motionLoop_false_some, motionLoop_nil_none]
    norm_num
  exact ⟨hmem, detect_motion_boundaries_exact_quotients 3 [true, false] _ hmem⟩

/-- Embeds `add_padding_to_segments` (motion.py lines 179-200): widen each
interval by `padding_seconds`, clamped to `[0, video_duration]`. -/
def add_padding_to_segments (segments : List Seg) (padding_seconds : ℚ)
    (video_duration : ℚ) : List Seg :=
  match segments with
  | [] => []
  | _ =>
    segments.map fun p =>
      (max 0 (p.1 - padding_seconds), min (p.2 + padding_seconds) video_duration)

/-- Embeds `process_motion_segments` (motion.py lines 231-243).  The empty
check comes first; only then, if `padding_seconds > 0`, a missing
`video_duration` raises `ValueError` (modelled as `Except.error`). -/
def process_motion_segments (segments : List Seg) (padding_seconds : ℚ)
    (video_duration : Option ℚ) : Except String (List Seg) :=
  if segments = [] then Except.ok []
  else if 0 < padding_seconds then
    match video_duration with
    | none => Except.error "video_duration is required when padding_seconds > 0"
    | some d =>
      Except.ok (merge_overlapping_segments
        (add_padding_to_segments segments padding_seconds d))
  else Except.ok (merge_overlapping_segments segments)

/-- C7 counterexample: with an empty segments list, padding requested
(`padding_seconds = 1 > 0`) and no known total duration, the call is NOT
rejected with a configuration error: the empty-input check fires first and the
function returns the empty list. -/
theorem process_motion_segments_empty_padding_no_error :
    process_motion_segments [] 1 none = Except.ok [] := rfl

/-- C7 amended: for every non-empty segments list, requesting padding
(`padding_seconds > 0`) without a known total duration (`video_duration =
none`) is rejected with the configuration error, while an empty segments input
always yields an empty output list and is never an error (even when padding is
requested without a duration). -/
theorem process_motion_segments_validation (segments : List Seg)
    (padding_seconds : ℚ) (video_duration : Option ℚ) :
    (segments ≠ [] → 0 < padding_seconds → video_duration = none →
      process_motion_segments segments padding_seconds video_duration =
        Except.error "video_duration is required when padding_seconds > 0") ∧
    (segments = [] →
      process_motion_segments segments padding_seconds video_duration =
        Except.ok []) := by
  constructor
  · intro hne hpad hdur
    subst hdur
    simp [process_motion_segments, hne, hpad]
  · intro he
    subst he
    simp [process_motion_segments]

/-- Witness for C7 at segments `[(0,1)]`, padding 1, duration `none` (first
conjunct) and at the empty list (second conjunct). -/
theorem process_motion_segments_validation_witness :
    ([((0 : ℚ), (1 : ℚ))] ≠ ([] : List Seg) ∧ (0 : ℚ) < 1 ∧
      process_motion_segments [((0 : ℚ), (1 : ℚ))] 1 none =
        Except.error "video_duration is required when padding_seconds > 0") ∧
    process_motion_segments ([] : List Seg) 1 none = Except.ok [] :=
  ⟨⟨by simp, by norm_num,
    (process_motion_segments_validation [((0 : ℚ), (1 : ℚ))] 1 none).1
      (by simp) (by norm_num) rfl⟩,
   (process_motion_segments_validation ([] : List Seg) 1 none).2 rfl⟩

/-- Outcome of the `subprocess.run` call inside `execute_ffmpeg_command`:
either the process completed (any return code) or one of the three caught
exception classes was raised. -/
inductive RunOutcome where
  | completed (returncode : ℤ) (stdout stderr : String)
  | timedOut
  | toolNotFound
  | raised (msg : String)
deriving DecidableEq

/-- Result dictionary of `execute_ffmpeg_command`.  The `output` field is an
`Option` because overlay.py's variant omits the `'output'` key in its exception
branches; `none` models an absent key. -/
structure ExecResult where
  success : Bool
  output : Option String
  error : String
  return_code : ℤ
deriving DecidableEq

/-- Embeds `execute_ffmpeg_command` from overlay.py (lines 101-122).  Note the
exception branches return dictionaries WITHOUT an `'output'` key. -/
def overlay_execute_ffmpeg_command : RunOutcome → ExecResult
  | RunOutcome.completed rc out err =>
    { success := decide (rc = 0), output := some out, error := err, return_code := rc }
  | RunOutcome.timedOut =>
    { success := false, output := none,
      error := "Command timed out after 5 minutes", return_code := -1 }
  | RunOutcome.toolNotFound =>
    { success := false, output := none,
      error := "ffmpeg.exe not found in PATH or current directory", return_code := -1 }
  | RunOutcome.raised msg =>
    { success := false, output := none,
      error := "Unexpected error: " ++ msg, return_code := -1 }

/-- Embeds `execute_ffmpeg_command` from render.py (lines 72-119), whose
exception branches all include `'output': ''`. -/
def render_execute_ffmpeg_command : RunOutcome → ExecResult
  | RunOutcome.completed rc out err =>
    { success := decide (rc = 0), output := some out, error := err, return_code := rc }
  | RunOutcome.timedOut =>
    { success := false, output := some "",
      error := "Command timed out after 5 minutes", return_code := -1 }
  | RunOutcome.toolNotFound =>
    { success := false, output := some "",
      error := "ffmpeg.exe not found in PATH or current directory", return_code := -1 }
  | RunOutcome.raised msg =>
    { success := false, output := some "",
      error := "Unexpected error: " ++ msg, return_code := -1 }

/-- Strings starting with different characters are different. -/
lemma append_ne_of_head_ne (a b : String) (m : String)
    (h : a.data.head? ≠ b.data.head?) (ha' : a.data ≠ []) :
    a ++ m ≠ b := by
  intro heq
  have h2 := congrArg String.data heq
  rw [String.data_append] at h2
  have h3 := congrArg List.head? h2
  cases ha : a.data with
  | nil => exact absurd ha ha'
  | cons c t =>
    rw [ha] at h h3
    rw [List.cons_append, List.head?_cons] at h3
    exact h h3

/-- C5 counterexample: overlay.py's Process Runner on the timeout outcome
returns a result with NO captured-standard-output field, so the three failure
outcomes do not share the full four-field result shape claimed. -/
theorem overlay_runner_drops_output_field :
    (overlay_execute_ffmpeg_command RunOutcome.timedOut).output = none ∧
    (render_execute_ffmpeg_command RunOutcome.timedOut).output = some "" := ⟨rfl, rfl⟩

/-- C5 amended: neither runner raises past its boundary (both are total over
all run outcomes); every result carries a success flag, error text and return
code; the timeout, tool-not-found and unexpected-exception outcomes each carry
a distinct human-readable message, `success = false` and sentinel return code
-1; render.py's variant additionally always includes the captured-stdout field,
while overlay.py's variant includes it only on the completed outcome and omits
it in the three failure branches. -/
theorem execute_ffmpeg_command_failure_shape :
    (∀ o : RunOutcome, (render_execute_ffmpeg_command o).output.isSome = true) ∧
    (∀ rc out err,
      overlay_execute_ffmpeg_command (RunOutcome.completed rc out err) =
        { success := decide (rc = 0), output := some out, error := err,
          return_code := rc }) ∧
    (∀ o : RunOutcome, (∀ rc out err, o ≠ RunOutcome.completed rc out err) →
      (overlay_execute_ffmpeg_command o).success = false ∧
      (overlay_execute_ffmpeg_command o).return_code = -1 ∧
      (overlay_execute_ffmpeg_command o).output = none ∧
      (render_execute_ffmpeg_command o).success = false ∧
      (render_execute_ffmpeg_command o).return_code = -1 ∧
      (render_execute_ffmpeg_command o).output = some "" ∧
      (render_execute_ffmpeg_command o).error =
        (overlay_execute_ffmpeg_command o).error) ∧
    ((overlay_execute_ffmpeg_command RunOutcome.timedOut).error ≠
      (overlay_execute_ffmpeg_command RunOutcome.toolNotFound).error) ∧
    (∀ msg,
      (overlay_execute_ffmpeg_command (RunOutcome.raised msg)).error ≠
        (overlay_execute_ffmpeg_command RunOutcome.timedOut).error ∧
      (overlay_execute_ffmpeg_command (RunOutcome.raised msg)).error ≠
        (overlay_execute_ffmpeg_command RunOutcome.toolNotFound).error) := by
  refine ⟨?_, fun rc out err => rfl, ?_, by decide, ?_⟩
  · intro o
    cases o <;> rfl
  · intro o ho
    cases o with
    | completed rc out err => exact absurd rfl (ho rc out err)
    | timedOut => exact ⟨rfl, rfl, rfl, rfl, rfl, rfl, rfl⟩
    | toolNotFound => exact ⟨rfl, rfl, rfl, rfl, rfl, rfl, rfl⟩
    | raised msg => exact ⟨rfl, rfl, rfl, rfl, rfl, rfl, rfl⟩
  · intro msg
    constructor
    · exact append_ne_of_head_ne _ _ msg (by decide) (by decide)
    · exact append_ne_of_head_ne _ _ msg (by decide) (by decide)

/-- Witness for C5 (amended) discharging the non-completed hypothesis at the
concrete timeout outcome. -/
theorem execute_ffmpeg_command_failure_shape_witness :
    (∀ rc out err, RunOutcome.timedOut ≠ RunOutcome.completed rc out err) ∧
    ((overlay_execute_ffmpeg_command RunOutcome.timedOut).success = false ∧
     (overlay_execute_ffmpeg_command RunOutcome.timedOut).return_code = -1 ∧
     (overlay_execute_ffmpeg_command RunOutcome.timedOut).output = none ∧
     (render_execute_ffmpeg_command RunOutcome.timedOut).success = false ∧
     (render_execute_ffmpeg_command RunOutcome.timedOut).return_code = -1 ∧
     (render_execute_ffmpeg_command RunOutcome.timedOut).output = some "" ∧
     (render_execute_ffmpeg_command RunOutcome.timedOut).error =
       (overlay_execute_ffmpeg_command RunOutcome.timedOut).error) :=
  ⟨fun _ _ _ h => RunOutcome.noConfusion h,
   execute_ffmpeg_command_failure_shape.2.2.1 RunOutcome.timedOut
     (fun _ _ _ h => RunOutcome.noConfusion h)⟩

/-- Per-input sub-filters of the synthesized filter graph: `tpad` (clone-pad
the last frame for `stop_duration` seconds) and `setpts` (shift presentation
timestamps by `shift` seconds, `setpts=PTS+shift/TB`). -/
inductive SubFilter where
  | tpad (stop_duration : ℚ)
  | setpts (shift : ℚ)
deriving DecidableEq

/-- Structured form of the command assembled by `get_multiple_overlay_command`:
the per-overlay input trims (`-ss start -t duration`), the per-input filter
chain, the per-overlay `enable='between(t,bg_start,bg_end)'` gates, and the
fixed overlay position. -/
structure OverlayCommand where
  inputs : List (ℚ × ℚ)
  chains : List (List SubFilter)
  gates : List Seg
  xy : ℚ × ℚ
deriving DecidableEq

/-- Sub-filter chain built for overlay index i (overlay.py lines 63-71 and
export.py lines 129-137): clone-pad by `freeze_duration` when it exceeds the
epsilon 0.001, then always shift timestamps to start at `bg_start`. -/
def overlay_sub_filters (overlay_seg bg_seg : Seg) : List SubFilter :=
  let overlay_duration := overlay_seg.2 - overlay_seg.1
  let bg_overlay_duration := bg_seg.2 - bg_seg.1
  let freeze_duration := bg_overlay_duration - overlay_duration
  (if freeze_duration > 1 / 1000 then [SubFilter.tpad freeze_duration] else [])
    ++ [SubFilter.setpts bg_seg.1]

/-- Embeds `get_multiple_overlay_command` (overlay.py lines 6-99, identically
export.py lines 72-165) at the level of the structured command data: mismatched
list lengths raise `ValueError` before any command text is built. -/
def get_multiple_overlay_command (overlay_segs bg_segs : List Seg)
    (xy_offset : ℚ × ℚ) : Except String OverlayCommand :=
  if overlay_segs.length ≠ bg_segs.length then
    Except.error "The number of overlay segments must match the number of background segments."
  else
    Except.ok
      { inputs := overlay_segs.map fun seg => (seg.1, seg.2 - seg.1)
        chains := (overlay_segs.zip bg_segs).map fun p => overlay_sub_filters p.1 p.2
        gates := bg_segs
        xy := xy_offset }

/-- Index access into the zipped-and-mapped chain list. -/
lemma zip_map_getD (f : Seg → Seg → List SubFilter) :
    ∀ (ov bg : List Seg) (i : ℕ), i < ov.length → i < bg.length →
    ((ov.zip bg).map (fun p => f p.1 p.2)).getD i [] =
      f (ov.getD i (0, 0)) (bg.getD i (0, 0)) := by
  intro ov
  induction ov with
  | nil => intro bg i hi _; simp at hi
  | cons o ot ih =>
    intro bg i hi hbg
    cases bg with
    | nil => simp at hbg
    | cons b bt =>
      cases i with
      | zero => simp
      | succ j =>
        simp only [List.zip_cons_cons, List.map_cons, List.getD_cons_succ]
        exact ih bt j (by simpa using hi) (by simpa using hbg)

/-- C1: for equal-length overlay/background interval lists, the synthesized
command's i-th input chain applies a clone-pad (`tpad`) of duration
`freeze_duration = (bg_end - bg_start) - (overlay_end - overlay_start)` exactly
when `freeze_duration` exceeds the epsilon 0.001 (no pad otherwise, including
negative `freeze_duration`), and always appends a `setpts` shift placing the
input's playback start at `bg_start`; in particular, overlay `[0.2,0.4]` with
background `[1,5]` yields the chain `[tpad 3.8, setpts 1]`. -/
theorem overlay_command_tpad_iff_freeze_exceeds_eps :
    (∀ (overlay_segs bg_segs : List Seg) (xy : ℚ × ℚ) (cmd : OverlayCommand),
      get_multiple_overlay_command overlay_segs bg_segs xy = Except.ok cmd →
      ∀ i, i < overlay_segs.length →
      ((bg_segs.getD i (0, 0)).2 - (bg_segs.getD i (0, 0)).1
          - ((overlay_segs.getD i (0, 0)).2 - (overlay_segs.getD i (0, 0)).1)
          > 1 / 1000 →
        cmd.chains.getD i [] =
          [SubFilter.tpad ((bg_segs.getD i (0, 0)).2 - (bg_segs.getD i (0, 0)).1
            - ((overlay_segs.getD i (0, 0)).2 - (overlay_segs.getD i (0, 0)).1)),
           SubFilter.setpts (bg_segs.getD i (0, 0)).1]) ∧
      ((bg_segs.getD i (0, 0)).2 - (bg_segs.getD i (0, 0)).1
          - ((overlay_segs.getD i (0, 0)).2 - (overlay_segs.getD i (0, 0)).1)
          ≤ 1 / 1000 →
        cmd.chains.getD i [] =
          [SubFilter.setpts (bg_segs.getD i (0, 0)).1])) ∧
    (∃ cmd, get_multiple_overlay_command [((1 : ℚ) / 5, 2 / 5)] [((1 : ℚ), 5)]
        (0, 0) = Except.ok cmd ∧
      cmd.chains = [[SubFilter.tpad (19 / 5), SubFilter.setpts 1]]) := by
  constructor
  · intro overlay_segs bg_segs xy cmd h i hi
    rw [get_multiple_overlay_command] at h
    by_cases hlen : overlay_segs.length = bg_segs.length
    · rw [if_neg (by omega)] at h
      have hcmd := (Except.ok.injEq _ _).mp h
      have hchains : cmd.chains =
          (overlay_segs.zip bg_segs).map fun p => overlay_sub_filters p.1 p.2 := by
        rw [← hcmd]
      rw [hchains, zip_map_getD _ overlay_segs bg_segs i hi (by omega)]
      constructor
      · intro hfreeze
        simp only [overlay_sub_filters]
        rw [if_pos hfreeze]
        rfl
      · intro hfreeze
        simp only [overlay_sub_filters]
        rw [if_neg (not_lt.mpr hfreeze)]
        rfl
    · rw [if_pos (by omega)] at h
      exact Except.noConfusion h
  · refine ⟨_, rfl, ?_⟩
    show (List.map _ _) = _
    rw [List.zip_cons_cons, List.zip_nil_right, List.map_cons, List.map_nil,
      overlay_sub_filters]
    norm_num

/-- Witness for C1 discharging the hypotheses at overlay `[0.2,0.4]`,
background `[1,5]`, index 0. -/
theorem overlay_command_tpad_witness :
    ∃ cmd, get_multiple_overlay_command [((1 : ℚ) / 5, 2 / 5)] [((1 : ℚ), 5)]
        (0, 0) = Except.ok cmd ∧
      (([((1 : ℚ), 5)].getD 0 (0, 0)).2 - (([((1 : ℚ), 5)]).getD 0 (0, 0)).1
          - (([((1 : ℚ) / 5, 2 / 5)].getD 0 (0, 0)).2
            - (([((1 : ℚ) / 5, 2 / 5)]).getD 0 (0, 0)).1) > 1 / 1000 →
        cmd.chains.getD 0 [] =
          [SubFilter.tpad (([((1 : ℚ), 5)].getD 0 (0, 0)).2
              - (([((1 : ℚ), 5)]).getD 0 (0, 0)).1
              - (([((1 : ℚ) / 5, 2 / 5)].getD 0 (0, 0)).2
                - (([((1 : ℚ) / 5, 2 / 5)]).getD 0 (0, 0)).1)),
           SubFilter.setpts (([((1 : ℚ), 5)]).getD 0 (0, 0)).1]) := by
  refine ⟨_, rfl, ?_⟩
  exact (overlay_command_tpad_iff_freeze_exceeds_eps.1 [((1 : ℚ) / 5, 2 / 5)]
    [((1 : ℚ), 5)] (0, 0) _ rfl 0 (by norm_num)).1

/-- Python's `round` to the nearest integer, with ties going to the even
integer (banker's rounding), on exact rationals. -/
def round_half_even (q : ℚ) : ℤ :=
  if q - (⌊q⌋ : ℚ) < 1 / 2 then ⌊q⌋
  else if 1 / 2 < q - (⌊q⌋ : ℚ) then ⌊q⌋ + 1
  else if ⌊q⌋ % 2 = 0 then ⌊q⌋ else ⌊q⌋ + 1

/-- Python's `round(q, 3)` on exact rationals. -/
def py_round3 (q : ℚ) : ℚ := (round_half_even (q * 1000) : ℚ) / 1000

/-- Embeds `process_overlay_data` (export.py lines 220-251) on the manifest
fields `timePerMove` and `timestamps`: `None` is returned when the timestamp
list is empty; otherwise overlay windows tile `[i*t, (i+1)*t]` (each boundary
passed through `round(_, 3)`), the timestamp list is extended with the sentinel
end time `7`, background window i is `[round(ts[i]-t, 3), ts[i+1]]`, and the
first background start is afterwards shifted forward by one `timePerMove`
(re-rounded). -/
def process_overlay_data (timePerMove : ℚ) (timestamps : List ℚ) :
    Option (List Seg × List Seg) :=
  let numberOfMoves := timestamps.length
  if numberOfMoves = 0 then none
  else
    let overlay_segs := (List.range numberOfMoves).map fun i : ℕ =>
      (py_round3 ((i : ℚ) * timePerMove), py_round3 (((i : ℚ) + 1) * timePerMove))
    let timestamps_copy := timestamps ++ [7]
    let bg_segs := (List.range numberOfMoves).map fun i : ℕ =>
      (py_round3 (timestamps_copy.getD i 0 - timePerMove), timestamps_copy.getD (i + 1) 0)
    let bg_segs' := bg_segs.modifyHead fun p => (py_round3 (p.1 + timePerMove), p.2)
    some (overlay_segs, bg_segs')

/-- Rounding to 3 decimal places fixes every integer multiple of `1/1000`. -/
lemma py_round3_eq_self (z : ℤ) : py_round3 ((z : ℚ) / 1000) = (z : ℚ) / 1000 := by
  rw [py_round3, round_half_even,
    show (z : ℚ) / 1000 * 1000 = (z : ℚ) by field_simp]
  rw [Int.floor_intCast]
  rw [if_pos (by norm_num)]

/-- Value of `round(1/3, 3)`. -/
lemma py_round3_one_third : py_round3 ((1 : ℚ) / 3) = 333 / 1000 := by
  have hfloor : ⌊(1000 : ℚ) / 3⌋ = 333 := by
    rw [Int.floor_eq_iff]
    norm_num
  rw [py_round3, round_half_even,
    show (1 : ℚ) / 3 * 1000 = 1000 / 3 by ring, hfloor]
  rw [if_pos (by norm_num)]
  norm_num

/-- C2 counterexample: with `timePerMove = 1/3` and a single timestamp, the
first overlay interval's end is `round(1/3, 3) = 333/1000`, not the claimed
exact `1 * timePerMove = 1/3`. -/
theorem process_overlay_data_rounds_boundaries :
    (∃ ov bg, process_overlay_data (1 / 3) [1] = some (ov, bg) ∧
      ov.getD 0 (0, 0) = ((0 : ℚ), 333 / 1000)) ∧
    (333 : ℚ) / 1000 ≠ 1 / 3 := by
  constructor
  · refine ⟨_, _, rfl, ?_⟩
    show ((List.range 1).map _).getD 0 (0, 0) = ((0 : ℚ), 333 / 1000)
    rw [show List.range 1 = [0] from rfl, List.map_cons, List.map_nil,
      List.getD_cons_zero]
    have h0 : py_round3 (((0 : ℕ) : ℚ) * (1 / 3)) = 0 := by
      rw [show (((0 : ℕ) : ℚ)) * (1 / 3) = ((0 : ℤ) : ℚ) / 1000 by norm_num]
      rw [py_round3_eq_self 0]
      norm_num
    have h1 : py_round3 ((((0 : ℕ) : ℚ) + 1) * (1 / 3)) = 333 / 1000 := by
      rw [show (((0 : ℕ) : ℚ) + 1) * (1 / 3) = 1 / 3 by norm_num]
      exact py_round3_one_third
    rw [h0, h1]
  · intro h
    have := (div_eq_div_iff (by norm_num : (1000 : ℚ) ≠ 0)
      (by norm_num : (3 : ℚ) ≠ 0)).mp h
    norm_num at this

/-- Rounding to 3 decimal places fixes any rational `q` with `q * 1000`
integral. -/
lemma py_round3_fix (q : ℚ) (z : ℤ) (h : q * 1000 = (z : ℚ)) :
    py_round3 q = q := by
  have hq : q = (z : ℚ) / 1000 := by
    rw [← h]
    field_simp
  rw [hq, py_round3_eq_self]

/-- Index access into a mapped range below the bound. -/
lemma range_map_getD_seg (n i : ℕ) (f : ℕ → Seg) (h : i < n) :
    ((List.range n).map f).getD i (0, 0) = f i := by
  rw [List.getD_eq_getElem _ _ (by simpa using h)]
  simp

/-- C2 amended, part structure: given a non-empty timestamp list,
`process_overlay_data` returns `N = len(timestamps)` overlay intervals with
interval i = `[round3(i*d), round3((i+1)*d)]`, and `N` background intervals
whose i-th end is the `(i+1)`-th entry of the timestamp list extended with the
sentinel `7`, whose i-th start (for `i ≥ 1`) is `round3(timestamps[i] - d)`,
and whose first start is the naive value `round3(timestamps[0] - d)` shifted
forward by exactly one `d` (re-rounded); plus the concrete instance
`timePerMove = 0.2`, `timestamps = [1,2,3]`. -/
theorem process_overlay_data_characterization (t : ℚ) (ts : List ℚ) :
    (ts ≠ [] →
      ∃ ov bg, process_overlay_data t ts = some (ov, bg) ∧
        ov.length = ts.length ∧ bg.length = ts.length ∧
        (∀ i, i < ts.length →
          ov.getD i (0, 0) =
            (py_round3 ((i : ℚ) * t), py_round3 (((i : ℚ) + 1) * t))) ∧
        (∀ i, i < ts.length →
          (bg.getD i (0, 0)).2 = (ts ++ [7]).getD (i + 1) 0) ∧
        (∀ i, 0 < i → i < ts.length →
          (bg.getD i (0, 0)).1 = py_round3 (ts.getD i 0 - t)) ∧
        (bg.getD 0 (0, 0)).1 = py_round3 (py_round3 (ts.getD 0 0 - t) + t)) ∧
    process_overlay_data (1 / 5) [1, 2, 3] =
      some ([((0 : ℚ), 1 / 5), (1 / 5, 2 / 5), (2 / 5, 3 / 5)],
        [((1 : ℚ), 2), (9 / 5, 3), (14 / 5, 7)]) := by
  constructor
  · intro hne
    have hn : ¬ ts.length = 0 := by simpa [List.length_eq_zero] using hne
    have hmain : process_overlay_data t ts =
        some ((List.range ts.length).map fun i : ℕ =>
            (py_round3 ((i : ℚ) * t), py_round3 (((i : ℚ) + 1) * t)),
          ((List.range ts.length).map fun i : ℕ =>
            (py_round3 ((ts ++ [7]).getD i 0 - t),
              (ts ++ [7]).getD (i + 1) 0)).modifyHead
            fun p => (py_round3 (p.1 + t), p.2)) := by
      simp only [process_overlay_data]
      rw [if_neg hn]
    refine ⟨_, _, hmain, ?_, ?_, ?_, ?_, ?_, ?_⟩
    · simp
    · simp
    · intro i hi
      exact range_map_getD_seg ts.length i _ hi
    · intro i hi
      rw [List.getD_eq_getElem _ _ (by simpa using hi)]
      cases i with
      | zero => simp
      | succ j => simp
    · intro i hpos hi
      rw [List.getD_eq_getElem _ _ (by simpa using hi)]
      cases i with
      | zero => omega
      | succ j =>
        rw [List.getElem_modifyHead_succ]
        simp only [List.getElem_map, List.getElem_range]
        rw [List.getD_append _ _ _ _ (by simpa using hi)]
    · rw [List.getD_eq_getElem _ _ (by simp; omega)]
      rw [List.getElem_modifyHead_zero]
      simp only [List.getElem_map, List.getElem_range]
      rw [List.getD_append _ _ _ _ (by omega)]
  · have r0 : py_round3 (0 : ℚ) = 0 := py_round3_fix 0 0 (by norm_num)
    have r15 : py_round3 ((1 : ℚ) / 5) = 1 / 5 := py_round3_fix _ 200 (by norm_num)
    have r25 : py_round3 ((2 : ℚ) / 5) = 2 / 5 := py_round3_fix _ 400 (by norm_num)
    have r35 : py_round3 ((3 : ℚ) / 5) = 3 / 5 := py_round3_fix _ 600 (by norm_num)
    have r45 : py_round3 ((4 : ℚ) / 5) = 4 / 5 := py_round3_fix _ 800 (by norm_num)
    have r95 : py_round3 ((9 : ℚ) / 5) = 9 / 5 := py_round3_fix _ 1800 (by norm_num)
    have r145 : py_round3 ((14 : ℚ) / 5) = 14 / 5 := py_round3_fix _ 2800 (by norm_num)
    have r1 : py_round3 (1 : ℚ) = 1 := py_round3_fix 1 1000 (by norm_num)
    simp only [process_overlay_data]
    rw [if_neg (by norm_num)]
    rw [show List.range ([(1 : ℚ), 2, 3].length) = [0, 1, 2] from rfl]
    rw [show ([(1 : ℚ), 2, 3] ++ [7]) = [1, 2, 3, 7] from rfl]
    simp only [List.map_cons, List.map_nil, List.modifyHead_cons,
      List.getD_cons_zero, List.getD_cons_succ]
    rw [show ((0 : ℕ) : ℚ) * (1 / 5) = 0 by norm_num,
      show (((0 : ℕ) : ℚ) + 1) * (1 / 5) = 1 / 5 by norm_num,
      show ((1 : ℕ) : ℚ) * (1 / 5) = 1 / 5 by norm_num,
      show (((1 : ℕ) : ℚ) + 1) * (1 / 5) = 2 / 5 by norm_num,
      show ((2 : ℕ) : ℚ) * (1 / 5) = 2 / 5 by norm_num,
      show (((2 : ℕ) : ℚ) + 1) * (1 / 5) = 3 / 5 by norm_num,
      show (1 : ℚ) - 1 / 5 = 4 / 5 by norm_num,
      show (2 : ℚ) - 1 / 5 = 9 / 5 by norm_num,
      show (3 : ℚ) - 1 / 5 = 14 / 5 by norm_num]
    rw [r0, r15, r25, r35, r45, r95, r145]
    rw [show (4 : ℚ) / 5 + 1 / 5 = 1 by norm_num, r1]

/-- Witness for the amended C2, discharging the non-empty hypothesis at
`timestamps = [1, 2, 3]`. -/
theorem process_overlay_data_characterization_witness :
    ([(1 : ℚ), 2, 3] ≠ []) ∧
    (∃ ov bg, process_overlay_data (1 / 5) [(1 : ℚ), 2, 3] = some (ov, bg) ∧
      ov.length = [(1 : ℚ), 2, 3].length ∧ bg.length = [(1 : ℚ), 2, 3].length ∧
      (∀ i, i < [(1 : ℚ), 2, 3].length →
        ov.getD i (0, 0) =
          (py_round3 ((i : ℚ) * (1 / 5)), py_round3 (((i : ℚ) + 1) * (1 / 5)))) ∧
      (∀ i, i < [(1 : ℚ), 2, 3].length →
        (bg.getD i (0, 0)).2 = ([(1 : ℚ), 2, 3] ++ [7]).getD (i + 1) 0) ∧
      (∀ i, 0 < i → i < [(1 : ℚ), 2, 3].length →
        (bg.getD i (0, 0)).1 =
          py_round3 ([(1 : ℚ), 2, 3].getD i 0 - 1 / 5)) ∧
      (bg.getD 0 (0, 0)).1 =
        py_round3 (py_round3 ([(1 : ℚ), 2, 3].getD 0 0 - 1 / 5) + 1 / 5)) :=
  ⟨by simp,
   (process_overlay_data_characterization (1 / 5) [(1 : ℚ), 2, 3]).1 (by simp)⟩

/-- Image point with integer coordinates (corners are parsed with `int` in
`parse_corners`). -/
abbrev Pt : Type := ℤ × ℤ

/-- Comparator of Python's `sorted(pts, key=lambda x: x[1])`: by y. -/
def ptLeY (a b : Pt) : Prop := a.2 ≤ b.2

/-- Comparator of Python's `sorted(pts, key=lambda x: x[0])`: by x. -/
def ptLeX (a b : Pt) : Prop := a.1 ≤ b.1

/-- Comparator of Python's `sorted(pts, key=lambda x: x[0], reverse=True)`:
by x, descending (a stable reverse sort keeps equal keys in input order). -/
def ptGeX (a b : Pt) : Prop := b.1 ≤ a.1

instance : DecidableRel ptLeY := fun a b => inferInstanceAs (Decidable (a.2 ≤ b.2))

instance : DecidableRel ptLeX := fun a b => inferInstanceAs (Decidable (a.1 ≤ b.1))

instance : DecidableRel ptGeX := fun a b => inferInstanceAs (Decidable (b.1 ≤ a.1))

instance : IsTotal Pt ptLeY := ⟨fun a b => le_total a.2 b.2⟩

instance : IsTrans Pt ptLeY := ⟨fun _ _ _ h h2 => le_trans h h2⟩

/-- Embeds `order_points` from motion.py (lines 34-38): stable sort by y, the
two topmost sorted by x ascending, the two bottommost sorted by x descending,
returned as `[top[0], top[1], bottom[0], bottom[1]]`. -/
def order_points (pts : List Pt) : List Pt :=
  let y_sorted := List.insertionSort ptLeY pts
  let top_pts := List.insertionSort ptLeX (y_sorted.take 2)
  let bottom_pts := List.insertionSort ptGeX (y_sorted.drop 2)
  [top_pts.getD 0 (0, 0), top_pts.getD 1 (0, 0),
   bottom_pts.getD 0 (0, 0), bottom_pts.getD 1 (0, 0)]

/-- Embeds `order_points` from segmentation.py (lines 114-125): stable sort by
y, both halves sorted by x ascending, returned as
`[top[0], top[1], bottom[1], bottom[0]]`. -/
def seg_order_points (pts : List Pt) : List Pt :=
  let y_sorted := List.insertionSort ptLeY pts
  let top_pts := List.insertionSort ptLeX (y_sorted.take 2)
  let bottom_pts := List.insertionSort ptLeX (y_sorted.drop 2)
  [top_pts.getD 0 (0, 0), top_pts.getD 1 (0, 0),
   bottom_pts.getD 1 (0, 0), bottom_pts.getD 0 (0, 0)]

/-- Two-element ascending x-sort, first case. -/
lemma sort2_leX_pos (a b : Pt) (h : a.1 ≤ b.1) :
    List.insertionSort ptLeX [a, b] = [a, b] := by
  simp [List.insertionSort, List.orderedInsert, ptLeX, h]

/-- Two-element ascending x-sort, second case. -/
lemma sort2_leX_neg (a b : Pt) (h : ¬ a.1 ≤ b.1) :
    List.insertionSort ptLeX [a, b] = [b, a] := by
  simp [List.insertionSort, List.orderedInsert, ptLeX, h]

/-- Two-element descending x-sort, first case. -/
lemma sort2_geX_pos (a b : Pt) (h : b.1 ≤ a.1) :
    List.insertionSort ptGeX [a, b] = [a, b] := by
  simp [List.insertionSort, List.orderedInsert, ptGeX, h]

/-- Two-element descending x-sort, second case. -/
lemma sort2_geX_neg (a b : Pt) (h : ¬ b.1 ≤ a.1) :
    List.insertionSort ptGeX [a, b] = [b, a] := by
  simp [List.insertionSort, List.orderedInsert, ptGeX, h]

/-- The canonical invariant of a motion.py `order_points` output
`[t0, t1, b0, b1]`: the two top points carry the two smallest y values; the top
pair is in x order with y-order tie-breaking, the bottom pair in reverse x
order with y-order tie-breaking. -/
def OrderedInv (t0 t1 b0 b1 : Pt) : Prop :=
  t0.2 ≤ b0.2 ∧ t0.2 ≤ b1.2 ∧ t1.2 ≤ b0.2 ∧ t1.2 ≤ b1.2 ∧
  (t0.1 < t1.1 ∨ (t0.1 = t1.1 ∧ t0.2 ≤ t1.2)) ∧
  (b1.1 < b0.1 ∨ (b0.1 = b1.1 ∧ b0.2 ≤ b1.2))

/-- Stable y-sort of four points: some permutation with ascending y values. -/
lemma ysort4_eq (p0 p1 p2 p3 : Pt) :
    ∃ q0 q1 q2 q3, List.insertionSort ptLeY [p0, p1, p2, p3] = [q0, q1, q2, q3] ∧
      q0.2 ≤ q1.2 ∧ q1.2 ≤ q2.2 ∧ q2.2 ≤ q3.2 := by
  have hlen : (List.insertionSort ptLeY [p0, p1, p2, p3]).length = 4 := by
    rw [List.length_insertionSort]
    rfl
  have hsort : List.Sorted ptLeY (List.insertionSort ptLeY [p0, p1, p2, p3]) :=
    List.sorted_insertionSort ptLeY _
  rcases hl : List.insertionSort ptLeY [p0, p1, p2, p3] with
    _ | ⟨q0, _ | ⟨q1, _ | ⟨q2, _ | ⟨q3, _ | ⟨q4, tl⟩⟩⟩⟩⟩ <;>
    rw [hl] at hlen <;> simp at hlen
  rw [hl] at hsort
  simp only [List.sorted_cons, List.mem_cons, List.not_mem_nil, or_false,
    List.mem_singleton, forall_eq_or_imp, forall_eq, ptLeY] at hsort
  exact ⟨q0, q1, q2, q3, rfl, hsort.1.1, hsort.2.1.1, hsort.2.2.1⟩

/-- Any motion.py `order_points` output on four points satisfies the canonical
invariant. -/
lemma order_points_inv (p0 p1 p2 p3 : Pt) :
    ∃ t0 t1 b0 b1, order_points [p0, p1, p2, p3] = [t0, t1, b0, b1] ∧
      OrderedInv t0 t1 b0 b1 := by
  obtain ⟨q0, q1, q2, q3, hl, h01, h12, h23⟩ := ysort4_eq p0 p1 p2 p3
  simp only [order_points, hl, List.take_succ_cons, List.take_zero,
    List.drop_succ_cons, List.drop_zero]
  by_cases hx : q0.1 ≤ q1.1
  · rw [sort2_leX_pos q0 q1 hx]
    by_cases hbx : q3.1 ≤ q2.1
    · rw [sort2_geX_pos q2 q3 hbx]
      refine ⟨q0, q1, q2, q3, by simp, ?_⟩
      refine ⟨le_trans h01 h12, le_trans h01 (le_trans h12 h23), h12,
        le_trans h12 h23, ?_, ?_⟩
      · rcases lt_or_eq_of_le hx with h | h
        · exact Or.inl h
        · exact Or.inr ⟨h, h01⟩
      · rcases lt_or_eq_of_le hbx with h | h
        · exact Or.inl h
        · exact Or.inr ⟨h.symm, h23⟩
    · rw [sort2_geX_neg q2 q3 hbx]
      refine ⟨q0, q1, q3, q2, by simp, ?_⟩
      refine ⟨le_trans h01 (le_trans h12 h23), le_trans h01 h12,
        le_trans h12 h23, h12, ?_, Or.inl (not_le.mp hbx)⟩
      rcases lt_or_eq_of_le hx with h | h
      · exact Or.inl h
      · exact Or.inr ⟨h, h01⟩
  · rw [sort2_leX_neg q0 q1 hx]
    by_cases hbx : q3.1 ≤ q2.1
    · rw [sort2_geX_pos q2 q3 hbx]
      refine ⟨q1, q0, q2, q3, by simp, ?_⟩
      refine ⟨h12, le_trans h12 h23, le_trans h01 h12,
        le_trans h01 (le_trans h12 h23), Or.inl (not_le.mp hx), ?_⟩
      rcases lt_or_eq_of_le hbx with h | h
      · exact Or.inl h
      · exact Or.inr ⟨h.symm, h23⟩
    · rw [sort2_geX_neg q2 q3 hbx]
      refine ⟨q1, q0, q3, q2, by simp, ?_⟩
      exact ⟨le_trans h12 h23, h12, le_trans h01 (le_trans h12 h23),
        le_trans h01 h12, Or.inl (not_le.mp hx), Or.inl (not_le.mp hbx)⟩

/-- A four-point list satisfying the canonical invariant is a fixed point of
motion.py's `order_points`. -/
lemma order_points_fixed (t0 t1 b0 b1 : Pt) (hinv : OrderedInv t0 t1 b0 b1) :
    order_points [t0, t1, b0, b1] = [t0, t1, b0, b1] := by
  obtain ⟨hy00, hy01, hy10, hy11, htop, hbot⟩ := hinv
  have htopLe : t0.1 ≤ t1.1 := by
    rcases htop with h | ⟨h, _⟩
    · exact le_of_lt h
    · exact le_of_eq h
  have hbotLe : b1.1 ≤ b0.1 := by
    rcases hbot with h | ⟨h, _⟩
    · exact le_of_lt h
    · exact le_of_eq h.symm
  by_cases ht : t0.2 ≤ t1.2 <;> by_cases hb : b0.2 ≤ b1.2
  · have hys : List.insertionSort ptLeY [t0, t1, b0, b1] = [t0, t1, b0, b1] := by
      simp [List.insertionSort, List.orderedInsert, ptLeY, ht, hb, hy00, hy01,
        hy10, hy11]
    simp only [order_points, hys, List.take_succ_cons, List.take_zero,
      List.drop_succ_cons, List.drop_zero,
      sort2_leX_pos t0 t1 htopLe, sort2_geX_pos b0 b1 hbotLe]
    simp
  · have hys : List.insertionSort ptLeY [t0, t1, b0, b1] = [t0, t1, b1, b0] := by
      simp [List.insertionSort, List.orderedInsert, ptLeY, ht, hb, hy00, hy01,
        hy10, hy11]
    have hblt : b1.1 < b0.1 := by
      rcases hbot with h | ⟨h, h2⟩
      · exact h
      · exact absurd h2 hb
    simp only [order_points, hys, List.take_succ_cons, List.take_zero,
      List.drop_succ_cons, List.drop_zero,
      sort2_leX_pos t0 t1 htopLe, sort2_geX_neg b1 b0 (not_le.mpr hblt)]
    simp
  · have hys : List.insertionSort ptLeY [t0, t1, b0, b1] = [t1, t0, b0, b1] := by
      simp [List.insertionSort, List.orderedInsert, ptLeY, ht, hb, hy00, hy01,
        hy10, hy11]
    have htlt : t0.1 < t1.1 := by
      rcases htop with h | ⟨h, h2⟩
      · exact h
      · exact absurd h2 ht
    simp only [order_points, hys, List.take_succ_cons, List.take_zero,
      List.drop_succ_cons, List.drop_zero,
      sort2_leX_neg t1 t0 (not_le.mpr htlt), sort2_geX_pos b0 b1 hbotLe]
    simp
  · have hys : List.insertionSort ptLeY [t0, t1, b0, b1] = [t1, t0, b1, b0] := by
      simp [List.insertionSort, List.orderedInsert, ptLeY, ht, hb, hy00, hy01,
        hy10, hy11]
    have htlt : t0.1 < t1.1 := by
      rcases htop with h | ⟨h, h2⟩
      · exact h
      · exact absurd h2 ht
    have hblt : b1.1 < b0.1 := by
      rcases hbot with h | ⟨h, h2⟩
      · exact h
      · exact absurd h2 hb
    simp only [order_points, hys, List.take_succ_cons, List.take_zero,
      List.drop_succ_cons, List.drop_zero,
      sort2_leX_neg t1 t0 (not_le.mpr htlt), sort2_geX_neg b1 b0 (not_le.mpr hblt)]
    simp

/-- C9: for every list of 4 points, motion.py's ROI canonicalization
`order_points` is idempotent (in particular for every non-degenerate convex
quadrilateral). -/
theorem order_points_idempotent (p0 p1 p2 p3 : Pt) :
    order_points (order_points [p0, p1, p2, p3]) = order_points [p0, p1, p2, p3] := by
  obtain ⟨t0, t1, b0, b1, heq, hinv⟩ := order_points_inv p0 p1 p2 p3
  rw [heq, order_points_fixed t0 t1 b0 b1 hinv]

/-- C10 counterexample: when the two bottom points share an x coordinate, the
stable descending sort of motion.py keeps them in y order while
segmentation.py's ascending-sort-then-swap reverses them, so the two
implementations disagree on `[(0,0), (1,0), (5,1), (5,2)]`. -/
theorem order_points_implementations_differ :
    order_points [((0 : ℤ), (0 : ℤ)), (1, 0), (5, 1), (5, 2)] =
      [((0 : ℤ), (0 : ℤ)), (1, 0), (5, 1), (5, 2)] ∧
    seg_order_points [((0 : ℤ), (0 : ℤ)), (1, 0), (5, 1), (5, 2)] =
      [((0 : ℤ), (0 : ℤ)), (1, 0), (5, 2), (5, 1)] ∧
    ([((0 : ℤ), (0 : ℤ)), (1, 0), (5, 1), (5, 2)] : List Pt) ≠
      [((0 : ℤ), (0 : ℤ)), (1, 0), (5, 2), (5, 1)] := by
  refine ⟨?_, ?_, by decide⟩ <;> decide

/-- C10 amended: on every 4-point list whose two bottom points (after the
stable y-sort) have distinct x coordinates, the two `order_points`
implementations agree. -/
theorem order_points_agree_of_bottom_x_distinct (p0 p1 p2 p3 : Pt) (q2 q3 : Pt)
    (hdrop : (List.insertionSort ptLeY [p0, p1, p2, p3]).drop 2 = [q2, q3])
    (hx : q2.1 ≠ q3.1) :
    seg_order_points [p0, p1, p2, p3] = order_points [p0, p1, p2, p3] := by
  obtain ⟨r0, r1, r2, r3, hl, _, _, _⟩ := ysort4_eq p0 p1 p2 p3
  rw [hl] at hdrop
  simp only [List.drop_succ_cons, List.drop_zero, List.cons.injEq,
    and_true] at hdrop
  obtain ⟨hr2, hr3⟩ := hdrop
  subst hr2
  subst hr3
  simp only [seg_order_points, order_points, hl, List.take_succ_cons,
    List.take_zero, List.drop_succ_cons, List.drop_zero]
  by_cases hx2 : r2.1 ≤ r3.1
  · have hlt : r2.1 < r3.1 := lt_of_le_of_ne hx2 hx
    rw [sort2_leX_pos r2 r3 hx2, sort2_geX_neg r2 r3 (not_le.mpr hlt)]
    simp
  · have hlt : r3.1 < r2.1 := not_le.mp hx2
    rw [sort2_leX_neg r2 r3 hx2, sort2_geX_pos r2 r3 (le_of_lt hlt)]
    simp

/-- Witness for the amended C10 at `[(0,0), (1,0), (2,1), (3,2)]`, whose
bottom pair `(2,1)`, `(3,2)` has distinct x coordinates. -/
theorem order_points_agree_witness :
    (List.insertionSort ptLeY
        [((0 : ℤ), (0 : ℤ)), (1, 0), (2, 1), (3, 2)]).drop 2 =
      [((2 : ℤ), (1 : ℤ)), (3, 2)] ∧
    ((2 : ℤ), (1 : ℤ)).1 ≠ ((3 : ℤ), (2 : ℤ)).1 ∧
    seg_order_points [((0 : ℤ), (0 : ℤ)), (1, 0), (2, 1), (3, 2)] =
      order_points [((0 : ℤ), (0 : ℤ)), (1, 0), (2, 1), (3, 2)] :=
  ⟨by decide, by decide,
   order_points_agree_of_bottom_x_distinct ((0 : ℤ), (0 : ℤ)) (1, 0) (2, 1)
     (3, 2) ((2 : ℤ), (1 : ℤ)) ((3 : ℤ), (2 : ℤ)) (by decide) (by decide)⟩

end Boardcast
